import Mathlib

/-!
Verification of the geobox spatial core: a shallow embedding of the BVH,
ray-AABB / ray-triangle intersection, vertex welding and sampling routines,
with machine floats modelled by exact rationals (the float operations used
by these routines are +, -, *, /, abs, min, max and comparisons, which we
interpret exactly over ℚ; `std::sqrt`, used only by the sampling transforms,
is modelled over ℝ).
-/

set_option autoImplicit false
set_option maxHeartbeats 1000000
set_option maxRecDepth 4000

unseal Rat.add Rat.sub Rat.mul Rat.inv

/-- A 3D vector with rational components (embedding of `glm::vec3`). -/
structure Vec3 where
  x : ℚ
  y : ℚ
  z : ℚ
deriving DecidableEq, Repr

def Vec3.add (a b : Vec3) : Vec3 := ⟨a.x + b.x, a.y + b.y, a.z + b.z⟩

def Vec3.sub (a b : Vec3) : Vec3 := ⟨a.x - b.x, a.y - b.y, a.z - b.z⟩

/-- Scalar multiplication (`v * s` on `glm::vec3`). -/
def Vec3.smul (s : ℚ) (v : Vec3) : Vec3 := ⟨s * v.x, s * v.y, s * v.z⟩

/-- Componentwise division by a scalar (`v / s` on `glm::vec3`). -/
def Vec3.divs (v : Vec3) (s : ℚ) : Vec3 := ⟨v.x / s, v.y / s, v.z / s⟩

/-- Componentwise (Hadamard) product (`v * w` on `glm::vec3`). -/
def Vec3.hmul (a b : Vec3) : Vec3 := ⟨a.x * b.x, a.y * b.y, a.z * b.z⟩

def Vec3.dot (a b : Vec3) : ℚ := a.x * b.x + a.y * b.y + a.z * b.z

def Vec3.dist2 (a b : Vec3) : ℚ :=
  (a.x - b.x) ^ 2 + (a.y - b.y) ^ 2 + (a.z - b.z) ^ 2

def vzero : Vec3 := ⟨0, 0, 0⟩

/-- Embeds `std::min` (kernel-reducible; equal to `min` on ℚ by `qmin_eq_min`). -/
def qmin (a b : ℚ) : ℚ := if b < a then b else a

/-- Embeds `std::max` (kernel-reducible; equal to `max` on ℚ by `qmax_eq_max`). -/
def qmax (a b : ℚ) : ℚ := if a < b then b else a

theorem qmin_eq_min (a b : ℚ) : qmin a b = min a b := by
  unfold qmin
  rw [min_def]
  split_ifs <;> first | rfl | linarith

theorem qmax_eq_max (a b : ℚ) : qmax a b = max a b := by
  unfold qmax
  rw [max_def]
  split_ifs <;> first | rfl | linarith

/-- Componentwise minimum (`glm::min`). -/
def vmin (a b : Vec3) : Vec3 := ⟨qmin a.x b.x, qmin a.y b.y, qmin a.z b.z⟩

/-- Componentwise maximum (`glm::max`). -/
def vmax (a b : Vec3) : Vec3 := ⟨qmax a.x b.x, qmax a.y b.y, qmax a.z b.z⟩

theorem vec3_eq_iff (a b : Vec3) : a = b ↔ a.x = b.x ∧ a.y = b.y ∧ a.z = b.z := by
  cases a; cases b; simp

/-- Axis-aligned bounding box (`BVH::Node::AABB` / `AABB`). -/
structure AABB where
  min : Vec3
  max : Vec3
deriving DecidableEq, Repr

structure Ray where
  origin : Vec3
  direction : Vec3
deriving DecidableEq, Repr

/-- Embeds `Triangle` (three vertices). -/
structure Triangle where
  a : Vec3
  b : Vec3
  c : Vec3
deriving DecidableEq, Repr

/-- The fixed tolerance used by `is_close` and the ray-triangle test (`1e-5`). -/
def epsilon : ℚ := 1 / 100000

/-- Embeds `common.cpp` `is_close`: `|a - b| <= epsilon * |a|`. -/
def is_close (a b : ℚ) : Bool := decide (|a - b| ≤ epsilon * |a|)

/-! ## Ray-AABB intersection (`bvh.cpp`) -/

/-- Embeds `min_component`: `std::min(v.x, std::min(v.y, v.z))`. -/
def min_component (v : Vec3) : ℚ := qmin v.x (qmin v.y v.z)

/-- Embeds `max_component` exactly as in the source: `std::max(v.x, std::min(v.y, v.z))`
(note the inner `std::min`). -/
def max_component (v : Vec3) : ℚ := qmax v.x (qmin v.y v.z)

/-- One component of `t_slab_min`: `0` when the direction component is close to
zero, otherwise the smaller of the two slab-crossing parameters. -/
def slab_min_component (lo hi o d : ℚ) : ℚ :=
  if is_close d 0 then 0 else qmin ((lo - o) / d) ((hi - o) / d)

/-- One component of `t_slab_max`: infinity (`none`) when the direction
component is close to zero, otherwise the larger slab-crossing parameter. -/
def slab_max_component (lo hi o d : ℚ) : Option ℚ :=
  if is_close d 0 then none else some (qmax ((lo - o) / d) ((hi - o) / d))

/-- Minimum of two extended rationals where `none` stands for `+∞`. -/
def opt_min (a b : Option ℚ) : Option ℚ :=
  match a, b with
  | none, b => b
  | some q, none => some q
  | some q, some r => some (qmin q r)

/-- Embeds `min_component` of the `t_slab_max` vector (whose entries may be `+∞`). -/
def min_component_opt (x y z : Option ℚ) : Option ℚ := opt_min x (opt_min y z)

/-- Embeds `ray_aabb_intersection`: returns `min(max(max_component(t_slab_min), 0), min_component(t_slab_max))`;
callers treat a non-negative return value as an intersection at that distance. -/
def ray_aabb_intersection (ray : Ray) (aabb : AABB) : ℚ :=
  let sx := slab_min_component aabb.min.x aabb.max.x ray.origin.x ray.direction.x
  let sy := slab_min_component aabb.min.y aabb.max.y ray.origin.y ray.direction.y
  let sz := slab_min_component aabb.min.z aabb.max.z ray.origin.z ray.direction.z
  let mx := slab_max_component aabb.min.x aabb.max.x ray.origin.x ray.direction.x
  let my := slab_max_component aabb.min.y aabb.max.y ray.origin.y ray.direction.y
  let mz := slab_max_component aabb.min.z aabb.max.z ray.origin.z ray.direction.z
  let t_min : ℚ := qmax (max_component ⟨sx, sy, sz⟩) 0
  match min_component_opt mx my mz with
  | none => t_min
  | some t_max => qmin t_min t_max

/-- What the specification prescribes for `t_min`: the maximum of the per-axis
slab minima, clamped to be non-negative. -/
def spec_slab_t_min (ray : Ray) (aabb : AABB) : ℚ :=
  let sx := slab_min_component aabb.min.x aabb.max.x ray.origin.x ray.direction.x
  let sy := slab_min_component aabb.min.y aabb.max.y ray.origin.y ray.direction.y
  let sz := slab_min_component aabb.min.z aabb.max.z ray.origin.z ray.direction.z
  qmax (qmax sx (qmax sy sz)) 0

/-- What the specification prescribes for `t_max`: the minimum of the per-axis
slab maxima. -/
def spec_slab_t_max (ray : Ray) (aabb : AABB) : Option ℚ :=
  let mx := slab_max_component aabb.min.x aabb.max.x ray.origin.x ray.direction.x
  let my := slab_max_component aabb.min.y aabb.max.y ray.origin.y ray.direction.y
  let mz := slab_max_component aabb.min.z aabb.max.z ray.origin.z ray.direction.z
  min_component_opt mx my mz

/-- Failing input for the slab test: the unit box and a ray that misses it. -/
def c1_ray : Ray := ⟨⟨-2, -8, 0⟩, ⟨1, 2, 0⟩⟩

def c1_box : AABB := ⟨⟨-1, -1, -1⟩, ⟨1, 1, 1⟩⟩

/-- C10: `is_close(a, 0)` holds if and only if `a` is exactly zero, so the
near-zero direction-component branch of the slab test and the
near-perpendicular-normal skip trigger only for exactly-zero values. -/
theorem is_close_zero_iff (a : ℚ) : is_close a 0 = true ↔ a = 0 := by
  unfold is_close
  rw [decide_eq_true_iff]
  constructor
  · intro h
    by_contra ha
    have hpos : 0 < |a| := abs_pos.mpr ha
    have : epsilon * |a| < 1 * |a| := by
      apply mul_lt_mul_of_pos_right _ hpos
      norm_num [epsilon]
    simp only [sub_zero] at h
    nlinarith
  · intro h
    subst h
    norm_num

/-- C1: the ray-AABB intersector does not implement the claimed slab test.  On
the unit box with ray origin `(-2,-8,0)` and direction `(1,2,0)` the per-axis
slab intervals are `[1,3]` (x) and `[7/2,9/2]` (y), so the claimed
`t_min = 7/2` exceeds `t_max = 3` and no intersection should be reported; yet
the code (whose `max_component` computes `max(x, min(y,z))` and which returns
`min(t_min, t_max)`) returns `1`, reporting a hit at distance `1`. -/
theorem ray_aabb_intersection_deviates_from_spec :
    ray_aabb_intersection c1_ray c1_box = 1 ∧
    0 ≤ ray_aabb_intersection c1_ray c1_box ∧
    spec_slab_t_min c1_ray c1_box = 7 / 2 ∧
    spec_slab_t_max c1_ray c1_box = some 3 := by
  refine ⟨?_, ?_, ?_, ?_⟩ <;> decide

/-! ## Ray-triangle intersection (`ray_triangle_intersection.cpp`) -/

/-- First cofactor column `(c11, c21, c31)` of `[direction | -(b-a) | -(c-a)]`,
which is the cross product `(b-a) x (c-a)`. -/
def tri_c1 (tri : Triangle) : Vec3 :=
  ⟨(tri.b.sub tri.a).y * (tri.c.sub tri.a).z - (tri.b.sub tri.a).z * (tri.c.sub tri.a).y,
   (tri.b.sub tri.a).z * (tri.c.sub tri.a).x - (tri.b.sub tri.a).x * (tri.c.sub tri.a).z,
   (tri.b.sub tri.a).x * (tri.c.sub tri.a).y - (tri.b.sub tri.a).y * (tri.c.sub tri.a).x⟩

/-- Second cofactor column `(c12, c22, c32)`: `direction x (c-a)`. -/
def tri_c2 (ray : Ray) (tri : Triangle) : Vec3 :=
  ⟨ray.direction.y * (tri.c.sub tri.a).z - ray.direction.z * (tri.c.sub tri.a).y,
   ray.direction.z * (tri.c.sub tri.a).x - ray.direction.x * (tri.c.sub tri.a).z,
   ray.direction.x * (tri.c.sub tri.a).y - ray.direction.y * (tri.c.sub tri.a).x⟩

/-- Third cofactor column `(c13, c23, c33)`: `(b-a) x direction`. -/
def tri_c3 (ray : Ray) (tri : Triangle) : Vec3 :=
  ⟨ray.direction.z * (tri.b.sub tri.a).y - ray.direction.y * (tri.b.sub tri.a).z,
   ray.direction.x * (tri.b.sub tri.a).z - ray.direction.z * (tri.b.sub tri.a).x,
   ray.direction.y * (tri.b.sub tri.a).x - ray.direction.x * (tri.b.sub tri.a).y⟩

/-- Embeds `det = direction.x * c11 + direction.y * c21 + direction.z * c31`. -/
def tri_det (ray : Ray) (tri : Triangle) : ℚ := Vec3.dot ray.direction (tri_c1 tri)

/-- The constant column vector `c = a - origin`. -/
def tri_cv (ray : Ray) (tri : Triangle) : Vec3 := tri.a.sub ray.origin

/-- Embeds `t = (c11 * c.x + c21 * c.y + c31 * c.z) / det`. -/
def tri_t (ray : Ray) (tri : Triangle) : ℚ :=
  Vec3.dot (tri_c1 tri) (tri_cv ray tri) / tri_det ray tri

/-- Embeds `u = (c12 * c.x + c22 * c.y + c32 * c.z) / det`. -/
def tri_u (ray : Ray) (tri : Triangle) : ℚ :=
  Vec3.dot (tri_c2 ray tri) (tri_cv ray tri) / tri_det ray tri

/-- Embeds `v = (c13 * c.x + c23 * c.y + c33 * c.z) / det`. -/
def tri_v (ray : Ray) (tri : Triangle) : ℚ :=
  Vec3.dot (tri_c3 ray tri) (tri_cv ray tri) / tri_det ray tri

/-- Embeds `ray_intersects_triangle_non_coplanar`, with the source's rejection tests in
source order. -/
def ray_intersects_triangle_non_coplanar (ray : Ray) (tri : Triangle) : Bool :=
  if |tri_det ray tri| < epsilon then false
  else if tri_t ray tri < -epsilon then false
  else if tri_u ray tri < -epsilon then false
  else if tri_v ray tri < -epsilon then false
  else if tri_u ray tri + tri_v ray tri > 1 + epsilon then false
  else true

/-- Modelled from the spec: the `std::optional<float>` variant of
`ray_intersects_triangle_non_coplanar` declared in
`ray_triangle_intersection.hpp` (its body is not under `src/`); per the spec it
returns the hit parameter `t` instead of `true`, with the same rejection
tests. -/
def ray_intersects_triangle_t (ray : Ray) (tri : Triangle) : Option ℚ :=
  if |tri_det ray tri| < epsilon then none
  else if tri_t ray tri < -epsilon then none
  else if tri_u ray tri < -epsilon then none
  else if tri_v ray tri < -epsilon then none
  else if tri_u ray tri + tri_v ray tri > 1 + epsilon then none
  else some (tri_t ray tri)

/-- The linear system `origin + t*direction = a + u*(b-a) + v*(c-a)`. -/
def tri_system (ray : Ray) (tri : Triangle) (t u v : ℚ) : Prop :=
  ray.origin.add (Vec3.smul t ray.direction) =
    tri.a.add ((Vec3.smul u (tri.b.sub tri.a)).add (Vec3.smul v (tri.c.sub tri.a)))

theorem cramer_solves (ray : Ray) (tri : Triangle) (hD : tri_det ray tri ≠ 0) :
    tri_system ray tri (tri_t ray tri) (tri_u ray tri) (tri_v ray tri) := by
  obtain ⟨⟨ox, oy, oz⟩, ⟨dx, dy, dz⟩⟩ := ray
  obtain ⟨⟨ax, ay, az⟩, ⟨bx, by', bz⟩, ⟨cx, cy, cz⟩⟩ := tri
  unfold tri_det tri_c1 Vec3.dot Vec3.sub at hD
  dsimp only at hD
  unfold tri_system tri_t tri_u tri_v tri_det tri_c1 tri_c2 tri_c3 tri_cv
    Vec3.add Vec3.smul Vec3.sub Vec3.dot
  rw [vec3_eq_iff]
  dsimp only
  refine ⟨?_, ?_, ?_⟩ <;> (field_simp; ring)

theorem cramer_unique (ray : Ray) (tri : Triangle) (hD : tri_det ray tri ≠ 0)
    (t u v : ℚ) (h : tri_system ray tri t u v) :
    t = tri_t ray tri ∧ u = tri_u ray tri ∧ v = tri_v ray tri := by
  obtain ⟨⟨ox, oy, oz⟩, ⟨dx, dy, dz⟩⟩ := ray
  obtain ⟨⟨ax, ay, az⟩, ⟨bx, by', bz⟩, ⟨cx, cy, cz⟩⟩ := tri
  unfold tri_det tri_c1 Vec3.dot Vec3.sub at hD
  dsimp only at hD
  unfold tri_system Vec3.add Vec3.smul Vec3.sub at h
  rw [vec3_eq_iff] at h
  dsimp only at h
  obtain ⟨ex, ey, ez⟩ := h
  unfold tri_t tri_u tri_v tri_det tri_c1 tri_c2 tri_c3 tri_cv Vec3.dot Vec3.sub
  dsimp only
  refine ⟨?_, ?_, ?_⟩ <;> rw [eq_div_iff hD]
  · linear_combination
      ((by' - ay) * (cz - az) - (bz - az) * (cy - ay)) * ex +
      ((bz - az) * (cx - ax) - (bx - ax) * (cz - az)) * ey +
      ((bx - ax) * (cy - ay) - (by' - ay) * (cx - ax)) * ez
  · linear_combination
      (dy * (cz - az) - dz * (cy - ay)) * ex +
      (dz * (cx - ax) - dx * (cz - az)) * ey +
      (dx * (cy - ay) - dy * (cx - ax)) * ez
  · linear_combination
      (dz * (by' - ay) - dy * (bz - az)) * ex +
      (dx * (bz - az) - dz * (bx - ax)) * ey +
      (dy * (bx - ax) - dx * (by' - ay)) * ez

/-- C3: the ray-triangle intersector reports a hit if and only if the
Cramer's-rule solution `(t, u, v)` of
`origin + t*direction = a + u*(b-a) + v*(c-a)` exists with
`|det| >= epsilon` (`epsilon = 1e-5`), `t >= -epsilon`, `u >= -epsilon`,
`v >= -epsilon` and `u + v <= 1 + epsilon`; a near-zero determinant yields
"no hit" rather than an error. -/
theorem ray_intersects_triangle_iff (ray : Ray) (tri : Triangle) :
    ray_intersects_triangle_non_coplanar ray tri = true ↔
      epsilon ≤ |tri_det ray tri| ∧
      ∃ t u v : ℚ, tri_system ray tri t u v ∧
        -epsilon ≤ t ∧ -epsilon ≤ u ∧ -epsilon ≤ v ∧ u + v ≤ 1 + epsilon := by
  have heps : (0 : ℚ) < epsilon := by norm_num [epsilon]
  unfold ray_intersects_triangle_non_coplanar
  split_ifs with h1 h2 h3 h4 h5
  · simp only [Bool.false_eq_true, false_iff]
    rintro ⟨hd, -⟩
    exact absurd hd (not_le.mpr h1)
  · simp only [Bool.false_eq_true, false_iff]
    rintro ⟨hd, t, u, v, hsys, ht, -, -, -⟩
    have hD : tri_det ray tri ≠ 0 := by
      intro h0
      rw [h0, abs_zero] at hd
      linarith
    obtain ⟨rfl, -, -⟩ := cramer_unique ray tri hD t u v hsys
    linarith
  · simp only [Bool.false_eq_true, false_iff]
    rintro ⟨hd, t, u, v, hsys, -, hu, -, -⟩
    have hD : tri_det ray tri ≠ 0 := by
      intro h0
      rw [h0, abs_zero] at hd
      linarith
    obtain ⟨-, rfl, -⟩ := cramer_unique ray tri hD t u v hsys
    linarith
  · simp only [Bool.false_eq_true, false_iff]
    rintro ⟨hd, t, u, v, hsys, -, -, hv, -⟩
    have hD : tri_det ray tri ≠ 0 := by
      intro h0
      rw [h0, abs_zero] at hd
      linarith
    obtain ⟨-, -, rfl⟩ := cramer_unique ray tri hD t u v hsys
    linarith
  · simp only [Bool.false_eq_true, false_iff]
    rintro ⟨hd, t, u, v, hsys, -, -, -, huv⟩
    have hD : tri_det ray tri ≠ 0 := by
      intro h0
      rw [h0, abs_zero] at hd
      linarith
    obtain ⟨-, rfl, rfl⟩ := cramer_unique ray tri hD t u v hsys
    linarith
  · simp only [true_iff]
    have hd : epsilon ≤ |tri_det ray tri| := not_lt.mp h1
    have hD : tri_det ray tri ≠ 0 := by
      intro h0
      rw [h0, abs_zero] at hd
      linarith
    exact ⟨hd, tri_t ray tri, tri_u ray tri, tri_v ray tri, cramer_solves ray tri hD,
      not_lt.mp h2, not_lt.mp h3, not_lt.mp h4, not_lt.mp h5⟩

/-! ## BVH construction (`bvh.cpp` `BVH::from_bounding_boxes`) -/

def dummy_aabb : AABB := ⟨vzero, vzero⟩

/-- Embeds `bounding_boxes[i]` (reads are always in bounds in the source). -/
def box_at (boxes : List AABB) (i : Nat) : AABB := boxes.getD i dummy_aabb

/-- Bounding-box center: `aabb.min * 0.5f + aabb.max * 0.5f`. -/
def aabb_center (aabb : AABB) : Vec3 :=
  (Vec3.smul (1 / 2) aabb.min).add (Vec3.smul (1 / 2) aabb.max)

def cent_at (centers : List Vec3) (i : Nat) : Vec3 := centers.getD i vzero

/-- Embeds `v[axis]` for `axis` in `0, 1, 2`. -/
def vcomp (v : Vec3) (axis : Nat) : ℚ :=
  if axis = 0 then v.x else if axis = 1 then v.y else v.z

/-- Embeds `calc_aabb_indirect`: starts from `bounding_boxes[*first]` and folds the
component minima and maxima in two separate passes over the whole range. -/
def calc_aabb_indirect (boxes : List AABB) (prims : List Nat) : AABB :=
  match prims with
  | [] => dummy_aabb
  | p :: _ =>
    ⟨prims.foldl (fun acc i => vmin acc (box_at boxes i).min) (box_at boxes p).min,
     prims.foldl (fun acc i => vmax acc (box_at boxes i).max) (box_at boxes p).max⟩

/-- The single accumulation pass for the split: `mean += v / n` and
`mean_of_squares += v * (v / n)` over the node's primitives. -/
def mean_and_mos (centers : List Vec3) (prims : List Nat) : Vec3 × Vec3 :=
  prims.foldl
    (fun acc i =>
      let v := cent_at centers i
      let tmp := v.divs (prims.length : ℚ)
      (acc.1.add tmp, acc.2.add (v.hmul tmp)))
    (vzero, vzero)

/-- Axis of greatest variance; ties favour the lower axis index (`axis = 1`
only when `variance[1] > variance[0]`, then `axis = 2` only when
`variance[2] > variance[axis]`). -/
def split_axis (variance : Vec3) : Nat :=
  let a1 : Nat := if variance.x < variance.y then 1 else 0
  if vcomp variance a1 < variance.z then 2 else a1

/-- Embeds `std::numeric_limits<float>::max() = (2^24 - 1) * 2^104`, the bound used by
the overflow check on the per-node primitive count. -/
def float_max_q : ℚ := (2 ^ 24 - 1) * 2 ^ 104

/-- A built BVH tree: the permutation array is represented implicitly, a leaf
holding the slice of primitive indices of its inclusive `[first, last]` range;
an internal node's range is the concatenation of its children's ranges
(`final_prims`). -/
inductive BVHTree where
  | leaf (aabb : AABB) (prims : List Nat) : BVHTree
  | node (aabb : AABB) (left right : BVHTree) : BVHTree
deriving DecidableEq, Repr

def BVHTree.aabb_of : BVHTree → AABB
  | .leaf a _ => a
  | .node a _ _ => a

/-- The contents of the node's `[first, last]` range of the permutation array
once construction has finished. -/
def final_prims : BVHTree → List Nat
  | .leaf _ ps => ps
  | .node _ l r => final_prims l ++ final_prims r

def subtrees : BVHTree → List BVHTree
  | .leaf a ps => [.leaf a ps]
  | .node a l r => .node a l r :: (subtrees l ++ subtrees r)

/-- Embeds `BVH::count_nodes` (traversal with a pass-all filter visits every node). -/
def count_nodes : BVHTree → Nat
  | .leaf _ _ => 1
  | .node _ l r => 1 + count_nodes l + count_nodes r

/-- Embeds `BVH::count_primitives`: sums `num_primitives()` over all leaves. -/
def count_primitives : BVHTree → Nat
  | .leaf _ ps => ps.length
  | .node _ l r => count_primitives l + count_primitives r

theorem partition_length (p : Nat → Bool) (l : List Nat) :
    (l.partition p).1.length + (l.partition p).2.length = l.length := by
  simp only [List.partition_eq_filter_filter]
  induction l with
  | nil => rfl
  | cons a l ih =>
    cases h : p a <;> simp [List.filter_cons, h, Function.comp] <;> omega

/-- The in-place `std::partition` predicate:
`bounding_box_centers[i][axis] < split_pos`. -/
def split_pred (centers : List Vec3) (prims : List Nat) (i : Nat) : Bool :=
  let ms := mean_and_mos centers prims
  let variance := ms.2.sub (ms.1.hmul ms.1)
  let axis := split_axis variance
  let split_pos := vcomp ms.1 axis
  decide (vcomp (cent_at centers i) axis < split_pos)

/-- Embeds `BVH::from_bounding_boxes`'s node-splitting loop, as a recursion on the
node's slice of the index array.  Returns `none` when the overflow check
aborts the whole build.  The `fuel` argument is only a structural-termination
device (each recursive call is on a strictly shorter slice, so with
`prims.length ≤ fuel` the fuel never runs out — `build_node_fuel_irrelevant`);
it keeps the definition kernel-reducible. -/
def build_node (boxes : List AABB) (centers : List Vec3) :
    Nat → List Nat → Option BVHTree
  | 0, _ => none
  | fuel + 1, prims =>
    let aabb := calc_aabb_indirect boxes prims
    if prims.length = 1 then some (.leaf aabb prims)
    else if float_max_q < (prims.length : ℚ) then none
    else
      if (prims.partition (split_pred centers prims)).1.length = 0 ∨
          (prims.partition (split_pred centers prims)).2.length = 0 then
        some (.leaf aabb prims)
      else
        match build_node boxes centers fuel (prims.partition (split_pred centers prims)).1,
            build_node boxes centers fuel (prims.partition (split_pred centers prims)).2 with
        | some l, some r => some (.node aabb l r)
        | _, _ => none

/-- Embeds `BVH::from_bounding_boxes`: empty input is rejected up front; otherwise the
index array is initialised to `[0, N)` and the root spans the whole range. -/
def from_bounding_boxes (boxes : List AABB) : Option BVHTree :=
  if boxes.length = 0 then none
  else build_node boxes (boxes.map aabb_center) boxes.length (List.range boxes.length)

/-! ## The tight-union characterisation of node bounding boxes -/

theorem aabb_eq_iff (A B : AABB) : A = B ↔ A.min = B.min ∧ A.max = B.max := by
  cases A; cases B; simp

/-- Union (componentwise min/max) of two boxes. -/
def aabb_union (a b : AABB) : AABB := ⟨vmin a.min b.min, vmax a.max b.max⟩

/-- The component-wise min/max union of the boxes selected by `prims`
(meaningful only for non-empty `prims`). -/
def union_aabb (boxes : List AABB) (prims : List Nat) : AABB :=
  match prims with
  | [] => dummy_aabb
  | p :: rest => rest.foldl (fun acc i => aabb_union acc (box_at boxes i)) (box_at boxes p)

theorem aabb_union_comm (a b : AABB) : aabb_union a b = aabb_union b a := by
  simp only [aabb_union, vmin, vmax, qmin_eq_min, qmax_eq_max, aabb_eq_iff, vec3_eq_iff]
  refine ⟨⟨?_, ?_, ?_⟩, ?_, ?_, ?_⟩ <;> first | apply min_comm | apply max_comm

theorem qmax_right_comm (a b c : ℚ) : max (max a b) c = max (max a c) b := by
  rw [max_assoc, max_comm b c, ← max_assoc]

theorem aabb_union_right_comm (a b c : AABB) :
    aabb_union (aabb_union a b) c = aabb_union (aabb_union a c) b := by
  simp only [aabb_union, vmin, vmax, qmin_eq_min, qmax_eq_max, aabb_eq_iff, vec3_eq_iff]
  refine ⟨⟨?_, ?_, ?_⟩, ?_, ?_, ?_⟩ <;> first | apply min_right_comm | apply qmax_right_comm

theorem aabb_union_self (a : AABB) : aabb_union a a = a := by
  simp only [aabb_union, vmin, vmax, qmin_eq_min, qmax_eq_max, aabb_eq_iff, vec3_eq_iff]
  simp

theorem foldl_union_perm (boxes : List AABB) {l₁ l₂ : List Nat} (h : l₁.Perm l₂) :
    ∀ A : AABB, l₁.foldl (fun acc i => aabb_union acc (box_at boxes i)) A =
      l₂.foldl (fun acc i => aabb_union acc (box_at boxes i)) A := by
  induction h with
  | nil => intro A; rfl
  | cons x h ih => intro A; simp only [List.foldl_cons]; exact ih _
  | swap x y l => intro A; simp only [List.foldl_cons]; rw [aabb_union_right_comm]
  | trans h₁ h₂ ih₁ ih₂ => intro A; rw [ih₁, ih₂]

theorem union_aabb_perm (boxes : List AABB) {l₁ l₂ : List Nat} (h : l₁.Perm l₂) :
    union_aabb boxes l₁ = union_aabb boxes l₂ := by
  induction h with
  | nil => rfl
  | cons x h ih => simp only [union_aabb]; exact foldl_union_perm boxes h _
  | swap x y l =>
    simp only [union_aabb, List.foldl_cons]
    rw [aabb_union_comm]
  | trans h₁ h₂ ih₁ ih₂ => rw [ih₁, ih₂]

/-- Embeds `A` contains `B` componentwise. -/
def contains_box (A B : AABB) : Prop :=
  A.min.x ≤ B.min.x ∧ A.min.y ≤ B.min.y ∧ A.min.z ≤ B.min.z ∧
  B.max.x ≤ A.max.x ∧ B.max.y ≤ A.max.y ∧ B.max.z ≤ A.max.z

theorem contains_box_refl (A : AABB) : contains_box A A := by
  unfold contains_box
  exact ⟨le_refl _, le_refl _, le_refl _, le_refl _, le_refl _, le_refl _⟩

theorem contains_box_trans {A B C : AABB} (h₁ : contains_box A B) (h₂ : contains_box B C) :
    contains_box A C := by
  unfold contains_box at *
  obtain ⟨a1, a2, a3, a4, a5, a6⟩ := h₁
  obtain ⟨b1, b2, b3, b4, b5, b6⟩ := h₂
  exact ⟨a1.trans b1, a2.trans b2, a3.trans b3, b4.trans a4, b5.trans a5, b6.trans a6⟩

theorem contains_union_left (a b : AABB) : contains_box (aabb_union a b) a := by
  unfold contains_box aabb_union vmin vmax
  simp only [qmin_eq_min, qmax_eq_max]
  exact ⟨min_le_left _ _, min_le_left _ _, min_le_left _ _,
    le_max_left _ _, le_max_left _ _, le_max_left _ _⟩

theorem contains_union_right (a b : AABB) : contains_box (aabb_union a b) b := by
  rw [aabb_union_comm]
  exact contains_union_left b a

theorem foldl_union_superset (boxes : List AABB) (l : List Nat) :
    ∀ A : AABB,
      contains_box (l.foldl (fun acc i => aabb_union acc (box_at boxes i)) A) A ∧
      ∀ j ∈ l, contains_box (l.foldl (fun acc i => aabb_union acc (box_at boxes i)) A)
        (box_at boxes j) := by
  induction l with
  | nil => intro A; exact ⟨contains_box_refl A, by simp⟩
  | cons a l ih =>
    intro A
    simp only [List.foldl_cons]
    obtain ⟨h1, h2⟩ := ih (aabb_union A (box_at boxes a))
    refine ⟨contains_box_trans h1 (contains_union_left _ _), ?_⟩
    intro j hj
    rcases List.mem_cons.mp hj with rfl | hj
    · exact contains_box_trans h1 (contains_union_right _ _)
    · exact h2 j hj

theorem union_aabb_superset (boxes : List AABB) (prims : List Nat) :
    ∀ j ∈ prims, contains_box (union_aabb boxes prims) (box_at boxes j) := by
  cases prims with
  | nil => simp
  | cons p rest =>
    intro j hj
    unfold union_aabb
    rcases List.mem_cons.mp hj with rfl | hj
    · exact (foldl_union_superset boxes rest _).1
    · exact (foldl_union_superset boxes rest _).2 j hj

theorem foldl_union_min_proj (boxes : List AABB) (l : List Nat) :
    ∀ A : AABB, (l.foldl (fun acc i => aabb_union acc (box_at boxes i)) A).min =
      l.foldl (fun acc i => vmin acc (box_at boxes i).min) A.min := by
  induction l with
  | nil => intro A; rfl
  | cons a l ih => intro A; simp only [List.foldl_cons]; exact ih _

theorem foldl_union_max_proj (boxes : List AABB) (l : List Nat) :
    ∀ A : AABB, (l.foldl (fun acc i => aabb_union acc (box_at boxes i)) A).max =
      l.foldl (fun acc i => vmax acc (box_at boxes i).max) A.max := by
  induction l with
  | nil => intro A; rfl
  | cons a l ih => intro A; simp only [List.foldl_cons]; exact ih _

theorem vmin_self (a : Vec3) : vmin a a = a := by
  simp [vmin, qmin_eq_min, vec3_eq_iff]

theorem vmax_self (a : Vec3) : vmax a a = a := by
  simp [vmax, qmax_eq_max, vec3_eq_iff]

/-- Embeds `calc_aabb_indirect` computes exactly the tight union of its boxes. -/
theorem calc_aabb_eq_union (boxes : List AABB) (prims : List Nat) :
    calc_aabb_indirect boxes prims = union_aabb boxes prims := by
  cases prims with
  | nil => rfl
  | cons p rest =>
    unfold calc_aabb_indirect union_aabb
    dsimp only
    rw [aabb_eq_iff]
    constructor
    · dsimp only
      rw [foldl_union_min_proj, List.foldl_cons, vmin_self]
    · dsimp only
      rw [foldl_union_max_proj, List.foldl_cons, vmax_self]

/-! ## Construction invariants -/

theorem partition_perm (p : Nat → Bool) (l : List Nat) :
    ((l.partition p).1 ++ (l.partition p).2).Perm l := by
  simp only [List.partition_eq_filter_filter]
  exact List.filter_append_perm p l

theorem self_mem_subtrees (t : BVHTree) : t ∈ subtrees t := by
  cases t <;> simp [subtrees]

theorem mem_subtrees_left {s l r : BVHTree} {a : AABB} (h : s ∈ subtrees l) :
    s ∈ subtrees (BVHTree.node a l r) := by
  simp only [subtrees, List.mem_cons, List.mem_append]
  exact Or.inr (Or.inl h)

theorem mem_subtrees_right {s l r : BVHTree} {a : AABB} (h : s ∈ subtrees r) :
    s ∈ subtrees (BVHTree.node a l r) := by
  simp only [subtrees, List.mem_cons, List.mem_append]
  exact Or.inr (Or.inr h)

theorem count_primitives_eq_length : ∀ t : BVHTree,
    count_primitives t = (final_prims t).length := by
  intro t
  induction t with
  | leaf a ps => rfl
  | node a l r ihl ihr =>
    simp only [count_primitives, final_prims, List.length_append, ihl, ihr]

/-- Every invariant of `build_node` needed by the claims, in one strong
induction: the final contents of a node's range are a permutation of the
range it was created with, every subtree's range is non-empty, and every
subtree's AABB is the tight union of the boxes of its final range. -/
theorem build_node_invariant (boxes : List AABB) (centers : List Vec3) :
    ∀ (n : Nat) (prims : List Nat), prims.length ≤ n → prims ≠ [] →
      ∀ t : BVHTree, build_node boxes centers n prims = some t →
        (final_prims t).Perm prims ∧
        ∀ s ∈ subtrees t, final_prims s ≠ [] ∧
          BVHTree.aabb_of s = union_aabb boxes (final_prims s) := by
  intro n
  induction n with
  | zero =>
    intro prims hlen hne t ht
    simp [build_node] at ht
  | succ n ih =>
    intro prims hlen hne t ht
    rw [build_node] at ht
    split_ifs at ht with hc1 hc2 hc3
    · -- single-primitive leaf
      obtain rfl : BVHTree.leaf (calc_aabb_indirect boxes prims) prims = t :=
        Option.some.inj ht
      refine ⟨List.Perm.refl _, ?_⟩
      intro s hs
      simp only [subtrees, List.mem_singleton] at hs
      subst hs
      exact ⟨hne, calc_aabb_eq_union boxes prims⟩
    · -- degenerate partition leaf
      obtain rfl : BVHTree.leaf (calc_aabb_indirect boxes prims) prims = t :=
        Option.some.inj ht
      refine ⟨List.Perm.refl _, ?_⟩
      intro s hs
      simp only [subtrees, List.mem_singleton] at hs
      subst hs
      exact ⟨hne, calc_aabb_eq_union boxes prims⟩
    · -- internal node
      simp only [not_or] at hc3
      obtain ⟨hp1, hp2⟩ := hc3
      have hsum := partition_length (split_pred centers prims) prims
      have hne1 : (prims.partition (split_pred centers prims)).1 ≠ [] :=
        fun he => hp1 (by rw [he]; rfl)
      have hne2 : (prims.partition (split_pred centers prims)).2 ≠ [] :=
        fun he => hp2 (by rw [he]; rfl)
      have hl1 : (prims.partition (split_pred centers prims)).1.length ≤ n := by
        have : (prims.partition (split_pred centers prims)).2.length ≠ 0 := hp2
        omega
      have hl2 : (prims.partition (split_pred centers prims)).2.length ≤ n := by
        have : (prims.partition (split_pred centers prims)).1.length ≠ 0 := hp1
        omega
      rcases hbl : build_node boxes centers n (prims.partition (split_pred centers prims)).1
        with _ | l
      · rw [hbl] at ht; simp at ht
      rcases hbr : build_node boxes centers n (prims.partition (split_pred centers prims)).2
        with _ | r
      · rw [hbl, hbr] at ht; simp at ht
      rw [hbl, hbr] at ht
      obtain rfl : BVHTree.node (calc_aabb_indirect boxes prims) l r = t :=
        Option.some.inj ht
      obtain ⟨hperml, hsubl⟩ := ih _ hl1 hne1 l hbl
      obtain ⟨hpermr, hsubr⟩ := ih _ hl2 hne2 r hbr
      have hperm : (final_prims (BVHTree.node (calc_aabb_indirect boxes prims) l r)).Perm prims := by
        simp only [final_prims]
        exact (hperml.append hpermr).trans (partition_perm _ _)
      refine ⟨hperm, ?_⟩
      intro s hs
      simp only [subtrees, List.mem_cons, List.mem_append] at hs
      rcases hs with rfl | hs | hs
      · constructor
        · simp only [final_prims]
          intro hnil
          rcases List.append_eq_nil.mp hnil with ⟨he, -⟩
          exact hne1 (by
            have := hperml.length_eq
            rw [he] at this
            exact List.length_eq_zero.mp this.symm)
        · simp only [BVHTree.aabb_of]
          rw [calc_aabb_eq_union boxes prims]
          exact (union_aabb_perm boxes hperm).symm
      · exact hsubl s hs
      · exact hsubr s hs

/-- When the per-node overflow check cannot fire (the count is at most
`FLT_MAX`), the build always produces a tree. -/
theorem build_node_isSome (boxes : List AABB) (centers : List Vec3) :
    ∀ (n : Nat) (prims : List Nat), prims.length ≤ n → prims ≠ [] →
      ((prims.length : ℚ)) ≤ float_max_q →
      ∃ t : BVHTree, build_node boxes centers n prims = some t := by
  intro n
  induction n with
  | zero =>
    intro prims hlen hne _
    cases prims with
    | nil => exact absurd rfl hne
    | cons p rest => simp at hlen
  | succ n ih =>
    intro prims hlen hne hmax
    rw [build_node]
    split_ifs with hc1 hc2 hc3
    · exact ⟨_, rfl⟩
    · exact absurd hmax (not_le.mpr hc2)
    · exact ⟨_, rfl⟩
    · simp only [not_or] at hc3
      obtain ⟨hp1, hp2⟩ := hc3
      have hsum := partition_length (split_pred centers prims) prims
      have hne1 : (prims.partition (split_pred centers prims)).1 ≠ [] :=
        fun he => hp1 (by rw [he]; rfl)
      have hne2 : (prims.partition (split_pred centers prims)).2 ≠ [] :=
        fun he => hp2 (by rw [he]; rfl)
      have hl1 : (prims.partition (split_pred centers prims)).1.length ≤ n := by omega
      have hl2 : (prims.partition (split_pred centers prims)).2.length ≤ n := by omega
      have hm1 : (((prims.partition (split_pred centers prims)).1.length : ℚ)) ≤ float_max_q := by
        refine le_trans ?_ hmax
        exact_mod_cast Nat.cast_le.mpr (by omega)
      have hm2 : (((prims.partition (split_pred centers prims)).2.length : ℚ)) ≤ float_max_q := by
        refine le_trans ?_ hmax
        exact_mod_cast Nat.cast_le.mpr (by omega)
      obtain ⟨l, hl⟩ := ih _ hl1 hne1 hm1
      obtain ⟨r, hr⟩ := ih _ hl2 hne2 hm2
      rw [hl, hr]
      exact ⟨_, rfl⟩

theorem subtrees_nodup : ∀ t : BVHTree, (final_prims t).Nodup →
    ∀ s ∈ subtrees t, (final_prims s).Nodup := by
  intro t
  induction t with
  | leaf a ps =>
    intro h s hs
    simp only [subtrees, List.mem_singleton] at hs
    subst hs
    exact h
  | node a l r ihl ihr =>
    intro h s hs
    simp only [subtrees, List.mem_cons, List.mem_append] at hs
    simp only [final_prims] at h
    rcases hs with rfl | hs | hs
    · simpa [final_prims] using h
    · exact ihl h.of_append_left s hs
    · exact ihr h.of_append_right s hs

theorem subtrees_disjoint : ∀ t : BVHTree, (final_prims t).Nodup →
    ∀ (a : AABB) (l r : BVHTree), BVHTree.node a l r ∈ subtrees t →
      List.Disjoint (final_prims l) (final_prims r) := by
  intro t
  induction t with
  | leaf a ps =>
    intro _ a' l' r' hs
    simp [subtrees] at hs
  | node a l r ihl ihr =>
    intro h a' l' r' hs
    simp only [subtrees, List.mem_cons, List.mem_append] at hs
    simp only [final_prims] at h
    rcases hs with heq | hs | hs
    · obtain ⟨-, rfl, rfl⟩ := BVHTree.node.inj heq
      exact (List.nodup_append.mp h).2.2
    · exact ihl h.of_append_left a' l' r' hs
    · exact ihr h.of_append_right a' l' r' hs

theorem count_nodes_le : ∀ t : BVHTree,
    (∀ s ∈ subtrees t, final_prims s ≠ []) →
    count_nodes t ≤ 2 * (final_prims t).length - 1 := by
  intro t
  induction t with
  | leaf a ps =>
    intro h
    have hne : ps ≠ [] := by
      simpa [final_prims] using h _ (self_mem_subtrees _)
    have : 1 ≤ ps.length := by
      cases ps with
      | nil => exact absurd rfl hne
      | cons q qs => simp
    simp only [count_nodes, final_prims]
    omega
  | node a l r ihl ihr =>
    intro h
    have hl := ihl fun s hs => h s (mem_subtrees_left hs)
    have hr := ihr fun s hs => h s (mem_subtrees_right hs)
    have hlne : final_prims l ≠ [] := h l (mem_subtrees_left (self_mem_subtrees l))
    have hrne : final_prims r ≠ [] := h r (mem_subtrees_right (self_mem_subtrees r))
    have h1 : 1 ≤ (final_prims l).length := List.length_pos.mpr hlne
    have h2 : 1 ≤ (final_prims r).length := List.length_pos.mpr hrne
    simp only [count_nodes, final_prims, List.length_append]
    omega

theorem from_bounding_boxes_invariant (boxes : List AABB) (t : BVHTree)
    (h : from_bounding_boxes boxes = some t) :
    (final_prims t).Perm (List.range boxes.length) ∧
    ∀ s ∈ subtrees t, final_prims s ≠ [] ∧
      BVHTree.aabb_of s = union_aabb boxes (final_prims s) := by
  unfold from_bounding_boxes at h
  split_ifs at h with h0
  have hne : List.range boxes.length ≠ [] := by
    simp only [ne_eq, List.range_eq_nil]
    exact h0
  exact build_node_invariant boxes (boxes.map aabb_center) boxes.length
    (List.range boxes.length) (le_of_eq (List.length_range _)) hne t h

/-- C2: for every non-empty input list of `N` bounding boxes, after BVH
construction the permutation array still holds exactly the indices `0..N-1`
(each exactly once), every node's inclusive range is non-empty
(`first <= last`), the two children of any internal node partition their
parent's range disjointly, and `count_primitives()` returns `N`. -/
theorem bvh_construction_invariants (boxes : List AABB) (t : BVHTree)
    (h : from_bounding_boxes boxes = some t) :
    (final_prims t).Perm (List.range boxes.length) ∧
    (∀ s ∈ subtrees t, final_prims s ≠ []) ∧
    (∀ (a : AABB) (l r : BVHTree), BVHTree.node a l r ∈ subtrees t →
      final_prims (BVHTree.node a l r) = final_prims l ++ final_prims r ∧
      List.Disjoint (final_prims l) (final_prims r)) ∧
    count_primitives t = boxes.length := by
  obtain ⟨hperm, hsub⟩ := from_bounding_boxes_invariant boxes t h
  have hnodup : (final_prims t).Nodup :=
    hperm.nodup_iff.mpr (List.nodup_range _)
  refine ⟨hperm, fun s hs => (hsub s hs).1,
    fun a l r hs => ⟨rfl, subtrees_disjoint t hnodup a l r hs⟩, ?_⟩
  rw [count_primitives_eq_length, hperm.length_eq, List.length_range]

/-- Input for the construction witnesses: three point-like boxes. -/
def example_boxes : List AABB :=
  [⟨⟨0, 0, 0⟩, ⟨0, 0, 0⟩⟩, ⟨⟨1, 0, 0⟩, ⟨1, 0, 0⟩⟩, ⟨⟨5, 0, 0⟩, ⟨5, 0, 0⟩⟩]

/-- The tree the embedded construction produces on `example_boxes`. -/
def example_tree : BVHTree :=
  .node ⟨⟨0, 0, 0⟩, ⟨5, 0, 0⟩⟩
    (.node ⟨⟨0, 0, 0⟩, ⟨1, 0, 0⟩⟩
      (.leaf ⟨⟨0, 0, 0⟩, ⟨0, 0, 0⟩⟩ [0])
      (.leaf ⟨⟨1, 0, 0⟩, ⟨1, 0, 0⟩⟩ [1]))
    (.leaf ⟨⟨5, 0, 0⟩, ⟨5, 0, 0⟩⟩ [2])

theorem bvh_construction_invariants_witness :
    (final_prims example_tree).Perm (List.range example_boxes.length) ∧
    (∀ s ∈ subtrees example_tree, final_prims s ≠ []) ∧
    (∀ (a : AABB) (l r : BVHTree), BVHTree.node a l r ∈ subtrees example_tree →
      final_prims (BVHTree.node a l r) = final_prims l ++ final_prims r ∧
      List.Disjoint (final_prims l) (final_prims r)) ∧
    count_primitives example_tree = example_boxes.length :=
  bvh_construction_invariants example_boxes example_tree (by decide)

/-- C6: every node's AABB is exactly the componentwise min/max union of the
bounding boxes of the primitives in its range, and the root AABB is the union
of all input boxes. -/
theorem bvh_aabb_tight_union (boxes : List AABB) (t : BVHTree)
    (h : from_bounding_boxes boxes = some t) :
    (∀ s ∈ subtrees t, BVHTree.aabb_of s = union_aabb boxes (final_prims s)) ∧
    BVHTree.aabb_of t = union_aabb boxes (List.range boxes.length) := by
  obtain ⟨hperm, hsub⟩ := from_bounding_boxes_invariant boxes t h
  refine ⟨fun s hs => (hsub s hs).2, ?_⟩
  rw [(hsub t (self_mem_subtrees t)).2]
  exact union_aabb_perm boxes hperm

theorem bvh_aabb_tight_union_witness :
    (∀ s ∈ subtrees example_tree,
      BVHTree.aabb_of s = union_aabb example_boxes (final_prims s)) ∧
    BVHTree.aabb_of example_tree =
      union_aabb example_boxes (List.range example_boxes.length) :=
  bvh_aabb_tight_union example_boxes example_tree (by decide)

theorem build_node_none_of_overflow (boxes : List AABB) (centers : List Vec3)
    (fuel : Nat) (prims : List Nat) (h2 : 2 ≤ prims.length)
    (hover : float_max_q < (prims.length : ℚ)) :
    build_node boxes centers (fuel + 1) prims = none := by
  rw [build_node]
  rw [if_neg (by omega), if_pos hover]

/-- C7: BVH construction fails (returns no tree) in exactly two cases: the
input list is empty, or the primitive count exceeds the 32-bit float maximum
used by the variance-computation overflow check; every other input yields a
tree. -/
theorem from_bounding_boxes_none_iff (boxes : List AABB) :
    from_bounding_boxes boxes = none ↔
      boxes = [] ∨ float_max_q < (boxes.length : ℚ) := by
  unfold from_bounding_boxes
  split_ifs with h0
  · simp [List.length_eq_zero.mp h0]
  · constructor
    · intro h
      by_contra hcon
      push_neg at hcon
      obtain ⟨t, ht⟩ := build_node_isSome boxes (boxes.map aabb_center) boxes.length
        (List.range boxes.length) (le_of_eq (List.length_range _))
        (by simpa only [ne_eq, List.range_eq_nil] using h0)
        (by rw [List.length_range]; exact hcon.2)
      rw [ht] at h
      cases h
    · rintro (rfl | hover)
      · simp at h0
      · have h1 : (1 : ℚ) ≤ float_max_q := by norm_num [float_max_q]
        have hN : 2 ≤ boxes.length := by
          by_contra hlt
          push_neg at hlt
          interval_cases hc : boxes.length
          · exact h0 rfl
          · push_cast at hover
            linarith
        obtain ⟨m, hm⟩ := Nat.exists_eq_succ_of_ne_zero h0
        rw [hm]
        apply build_node_none_of_overflow
        · rw [List.length_range]
          omega
        · rw [List.length_range, ← hm]
          exact hover

/-- C8: the constructed tree never has more than `2N - 1` nodes, so the arena
of `2N - 1` pre-allocated nodes is never exceeded. -/
theorem bvh_arena_bound (boxes : List AABB) (t : BVHTree)
    (h : from_bounding_boxes boxes = some t) :
    count_nodes t ≤ 2 * boxes.length - 1 := by
  obtain ⟨hperm, hsub⟩ := from_bounding_boxes_invariant boxes t h
  have hle := count_nodes_le t (fun s hs => (hsub s hs).1)
  rwa [hperm.length_eq, List.length_range] at hle

theorem bvh_arena_bound_witness :
    count_nodes example_tree ≤ 2 * example_boxes.length - 1 :=
  bvh_arena_bound example_boxes example_tree (by decide)

/-! ## Filtered traversal (`BVH::foreach_primitive`) -/

/-- The sequence of primitive indices `foreach_primitive` invokes its callback
on: nodes failing the AABB filter are pruned with their whole subtree, leaves
iterate their range filtered by the primitive filter.  The explicit traversal
stack pushes `left` then `right` and pops the right child first, hence the
`right ++ left` order. -/
def collect_primitives (aabb_filter : AABB → Bool) (prim_filter : Nat → Bool) :
    BVHTree → List Nat
  | .leaf a ps => if aabb_filter a then ps.filter prim_filter else []
  | .node a l r =>
    if aabb_filter a then
      collect_primitives aabb_filter prim_filter r ++
        collect_primitives aabb_filter prim_filter l
    else []

theorem collect_count_le (aabb_filter : AABB → Bool) (prim_filter : Nat → Bool) :
    ∀ (t : BVHTree) (j : Nat),
      (collect_primitives aabb_filter prim_filter t).count j ≤ (final_prims t).count j := by
  intro t
  induction t with
  | leaf a ps =>
    intro j
    simp only [collect_primitives, final_prims]
    split_ifs
    · exact (List.filter_sublist ps).count_le j
    · simp
  | node a l r ihl ihr =>
    intro j
    simp only [collect_primitives, final_prims]
    split_ifs
    · rw [List.count_append, List.count_append]
      have := ihl j
      have := ihr j
      omega
    · simp

theorem collect_subset (aabb_filter : AABB → Bool) (prim_filter : Nat → Bool) :
    ∀ (t : BVHTree) (j : Nat), j ∈ collect_primitives aabb_filter prim_filter t →
      j ∈ final_prims t ∧ prim_filter j = true := by
  intro t
  induction t with
  | leaf a ps =>
    intro j hj
    simp only [collect_primitives] at hj
    split_ifs at hj
    · obtain ⟨hm, hp⟩ := List.mem_filter.mp hj
      exact ⟨hm, hp⟩
    · simp at hj
  | node a l r ihl ihr =>
    intro j hj
    simp only [collect_primitives] at hj
    split_ifs at hj
    · simp only [final_prims, List.mem_append]
      rcases List.mem_append.mp hj with hj | hj
      · obtain ⟨hm, hp⟩ := ihr j hj
        exact ⟨Or.inr hm, hp⟩
      · obtain ⟨hm, hp⟩ := ihl j hj
        exact ⟨Or.inl hm, hp⟩
    · simp at hj

theorem collect_complete (aabb_filter : AABB → Bool) (prim_filter : Nat → Bool) :
    ∀ (t : BVHTree) (j : Nat), j ∈ final_prims t → prim_filter j = true →
      (∀ s ∈ subtrees t, j ∈ final_prims s → aabb_filter (BVHTree.aabb_of s) = true) →
      j ∈ collect_primitives aabb_filter prim_filter t := by
  intro t
  induction t with
  | leaf a ps =>
    intro j hmem hpf haf
    have ha : aabb_filter a = true := haf _ (self_mem_subtrees _) hmem
    simp only [collect_primitives, ha, if_true]
    exact List.mem_filter.mpr ⟨hmem, hpf⟩
  | node a l r ihl ihr =>
    intro j hmem hpf haf
    have ha : aabb_filter a = true := haf _ (self_mem_subtrees _) hmem
    simp only [collect_primitives, ha, if_true, List.mem_append]
    rcases List.mem_append.mp hmem with hj | hj
    · exact Or.inr (ihl j hj hpf fun s hs hin => haf s (mem_subtrees_left hs) hin)
    · exact Or.inl (ihr j hj hpf fun s hs hin => haf s (mem_subtrees_right hs) hin)

/-! ## Vertex welding (`Object::from_triangles`,
`Indexed_Triangle_Mesh_Object::Indexed_Triangle_Mesh_Object`) -/

def vert_at (verts : List Vec3) (i : Nat) : Vec3 := verts.getD i vzero

/-- Every vertex position becomes a degenerate (zero-volume) box. -/
def point_boxes (verts : List Vec3) : List AABB := verts.map (fun v => ⟨v, v⟩)

/-- The fixed weld tolerance `range = 0.0001f`. -/
def weld_range : ℚ := 1 / 10000

/-- Embeds `closest_point_on_aabb`: `glm::clamp(point, aabb.min, aabb.max)`. -/
def closest_point_on_aabb (p : Vec3) (A : AABB) : Vec3 :=
  ⟨qmin (qmax p.x A.min.x) A.max.x,
   qmin (qmax p.y A.min.y) A.max.y,
   qmin (qmax p.z A.min.z) A.max.z⟩

def point_aabb_distance_squared (p : Vec3) (A : AABB) : ℚ :=
  Vec3.dist2 p (closest_point_on_aabb p A)

def sphere_aabb_intersection (center : Vec3) (radius : ℚ) (A : AABB) : Bool :=
  decide (point_aabb_distance_squared center A ≤ radius * radius)

/-- The welding loop's mutable state: `final_unique_vertex_index`,
`unique_vertices`, `is_remapped_vec` and `indices`. -/
structure Weld_State where
  next_index : Nat
  uniques : List Vec3
  remapped : Nat → Bool
  index_of : Nat → Nat

def initial_weld_state : Weld_State := ⟨0, [], fun _ => false, fun _ => 0⟩

/-- Embeds `duplicate_vertex_callback`: a not-yet-remapped duplicate is assigned the
seed's final unique index and marked remapped. -/
def assign_step (next : Nat) (st : Weld_State) (j : Nat) : Weld_State :=
  if st.remapped j then st
  else
    { st with
      index_of := fun k => if k = j then next else st.index_of k,
      remapped := fun k => if k = j then true else st.remapped k }

/-- The outer welding loop over the original vertices in input order,
parameterised by the query that lists the candidate duplicates of a seed
vertex. -/
def weld_pass (hits_of : Vec3 → List Nat) (verts : List Vec3) : Weld_State :=
  (List.range verts.length).foldl
    (fun st i =>
      if st.remapped i then st
      else
        let u := vert_at verts i
        let st' := (hits_of u).foldl (assign_step st.next_index) st
        { st' with next_index := st'.next_index + 1, uniques := st'.uniques ++ [u] })
    initial_weld_state

/-- The welding pass as the source performs it: candidate duplicates come from
the filtered BVH traversal with the sphere-AABB filter and the
squared-distance primitive filter. -/
def weld_code (verts : List Vec3) (t : BVHTree) : Weld_State :=
  weld_pass
    (fun u => collect_primitives
      (fun A => sphere_aabb_intersection u weld_range A)
      (fun j => decide (Vec3.dist2 u (vert_at verts j) ≤ weld_range * weld_range)) t)
    verts

def weld_output (st : Weld_State) (n : Nat) : List Vec3 × List Nat :=
  (st.uniques, (List.range n).map st.index_of)

/-- The whole import-side welding: build the BVH over the vertex point-boxes
(aborting like the source when that fails), then run the welding pass. -/
def weld_mesh (verts : List Vec3) : Option (List Vec3 × List Nat) :=
  match from_bounding_boxes (point_boxes verts) with
  | none => none
  | some t => some (weld_output (weld_code verts t) verts.length)

/-- The claim's description of the same pass: every input vertex within
distance epsilon of the seed (the seed included), not yet remapped, is
assigned the seed's final index. -/
def weld_greedy (verts : List Vec3) : List Vec3 × List Nat :=
  weld_output
    (weld_pass
      (fun u => (List.range verts.length).filter
        (fun j => decide (Vec3.dist2 u (vert_at verts j) ≤ weld_range * weld_range)))
      verts)
    verts.length

theorem weld_state_eq (a b : Weld_State) (h1 : a.next_index = b.next_index)
    (h2 : a.uniques = b.uniques) (h3 : ∀ k, a.remapped k = b.remapped k)
    (h4 : ∀ k, a.index_of k = b.index_of k) : a = b := by
  cases a
  cases b
  simp only [Weld_State.mk.injEq]
  exact ⟨h1, h2, funext h3, funext h4⟩

/-- The duplicate-assignment fold characterised pointwise: a vertex ends up
remapped iff it was already remapped or occurs among the hits, and its index is
overwritten exactly when it was unremapped and among the hits. -/
theorem assign_fold_spec (next : Nat) :
    ∀ (hits : List Nat) (st : Weld_State),
      (hits.foldl (assign_step next) st).next_index = st.next_index ∧
      (hits.foldl (assign_step next) st).uniques = st.uniques ∧
      ∀ k, ((hits.foldl (assign_step next) st).remapped k
              = (st.remapped k || decide (k ∈ hits))) ∧
        ((hits.foldl (assign_step next) st).index_of k
          = if st.remapped k = false ∧ k ∈ hits then next else st.index_of k) := by
  intro hits
  induction hits with
  | nil =>
    intro st
    refine ⟨rfl, rfl, fun k => ⟨by simp, by simp⟩⟩
  | cons j rest ih =>
    intro st
    rw [List.foldl_cons]
    obtain ⟨ihn, ihu, ihk⟩ := ih (assign_step next st j)
    refine ⟨?_, ?_, ?_⟩
    · rw [ihn]
      unfold assign_step
      split_ifs <;> rfl
    · rw [ihu]
      unfold assign_step
      split_ifs <;> rfl
    · intro k
      obtain ⟨ihr, ihi⟩ := ihk k
      constructor
      · rw [ihr]
        unfold assign_step
        by_cases hj : st.remapped j
        · rw [if_pos hj]
          by_cases hkj : k = j
          · subst hkj
            simp [hj]
          · simp [hkj]
        · rw [if_neg hj]
          by_cases hkj : k = j
          · subst hkj
            simp [hj]
          · simp [hkj]
      · rw [ihi]
        unfold assign_step
        by_cases hj : st.remapped j
        · rw [if_pos hj]
          by_cases hkj : k = j
          · subst hkj
            simp [hj]
          · simp [hkj]
        · rw [if_neg hj]
          by_cases hkj : k = j
          · subst hkj
            simp [hj]
          · simp [hkj]

theorem assign_fold_congr (next : Nat) (st : Weld_State) (hits₁ hits₂ : List Nat)
    (h : ∀ k, k ∈ hits₁ ↔ k ∈ hits₂) :
    hits₁.foldl (assign_step next) st = hits₂.foldl (assign_step next) st := by
  obtain ⟨h1n, h1u, h1k⟩ := assign_fold_spec next hits₁ st
  obtain ⟨h2n, h2u, h2k⟩ := assign_fold_spec next hits₂ st
  refine weld_state_eq _ _ (by rw [h1n, h2n]) (by rw [h1u, h2u]) ?_ ?_
  · intro k
    rw [(h1k k).1, (h2k k).1]
    simp only [h k]
  · intro k
    rw [(h1k k).2, (h2k k).2]
    by_cases hc : st.remapped k = false ∧ k ∈ hits₁
    · rw [if_pos hc, if_pos ⟨hc.1, (h k).mp hc.2⟩]
    · rw [if_neg hc, if_neg fun hc2 => hc ⟨hc2.1, (h k).mpr hc2.2⟩]

theorem weld_pass_congr (verts : List Vec3) (hits₁ hits₂ : Vec3 → List Nat)
    (h : ∀ u k, k ∈ hits₁ u ↔ k ∈ hits₂ u) :
    weld_pass hits₁ verts = weld_pass hits₂ verts := by
  unfold weld_pass
  congr 1
  funext st i
  by_cases hr : st.remapped i = true
  · rw [if_pos hr, if_pos hr]
  · rw [if_neg hr, if_neg hr]
    dsimp only
    rw [assign_fold_congr st.next_index st (hits₁ (vert_at verts i)) (hits₂ (vert_at verts i))
      (h (vert_at verts i))]

theorem clamp_comp_sq_le (x lo hi w : ℚ) (h1 : lo ≤ w) (h2 : w ≤ hi) :
    (x - qmin (qmax x lo) hi) ^ 2 ≤ (x - w) ^ 2 := by
  rw [qmin_eq_min, qmax_eq_max]
  rcases le_total x lo with hx | hx
  · rw [max_eq_right hx, min_eq_left (h1.trans h2)]
    nlinarith
  · rcases le_total hi x with hx2 | hx2
    · rw [max_eq_left hx, min_eq_right hx2]
      nlinarith
    · rw [max_eq_left hx, min_eq_left hx2]
      nlinarith [sq_nonneg (x - w)]

def in_aabb (p : Vec3) (A : AABB) : Prop :=
  A.min.x ≤ p.x ∧ p.x ≤ A.max.x ∧ A.min.y ≤ p.y ∧ p.y ≤ A.max.y ∧
    A.min.z ≤ p.z ∧ p.z ≤ A.max.z

/-- The clamped point is the closest point of the box: for any point of the
box the clamp is at least as close. -/
theorem point_aabb_dist_le (u v : Vec3) (A : AABB) (hv : in_aabb v A) :
    point_aabb_distance_squared u A ≤ Vec3.dist2 u v := by
  obtain ⟨h1, h2, h3, h4, h5, h6⟩ := hv
  unfold point_aabb_distance_squared closest_point_on_aabb Vec3.dist2
  dsimp only
  exact add_le_add (add_le_add (clamp_comp_sq_le u.x A.min.x A.max.x v.x h1 h2)
    (clamp_comp_sq_le u.y A.min.y A.max.y v.y h3 h4))
    (clamp_comp_sq_le u.z A.min.z A.max.z v.z h5 h6)

theorem in_aabb_of_contains_point_box (A : AABB) (v : Vec3)
    (h : contains_box A ⟨v, v⟩) : in_aabb v A := by
  obtain ⟨c1, c2, c3, c4, c5, c6⟩ := h
  exact ⟨c1, c4, c2, c5, c3, c6⟩

theorem point_boxes_at (verts : List Vec3) (k : Nat) (hk : k < verts.length) :
    box_at (point_boxes verts) k = ⟨vert_at verts k, vert_at verts k⟩ := by
  unfold box_at point_boxes vert_at
  rw [List.getD_eq_getElem?_getD, List.getD_eq_getElem?_getD, List.getElem?_map]
  rw [List.getElem?_eq_getElem hk]
  rfl

/-- On a BVH built over the vertex point-boxes, the filtered traversal of the
welding pass reports exactly the vertices within the weld tolerance of the
seed. -/
theorem weld_hits_mem_iff (verts : List Vec3) (t : BVHTree)
    (h : from_bounding_boxes (point_boxes verts) = some t) (u : Vec3) (k : Nat) :
    (k ∈ collect_primitives (fun A => sphere_aabb_intersection u weld_range A)
        (fun j => decide (Vec3.dist2 u (vert_at verts j) ≤ weld_range * weld_range)) t) ↔
    (k ∈ (List.range verts.length).filter
        (fun j => decide (Vec3.dist2 u (vert_at verts j) ≤ weld_range * weld_range))) := by
  obtain ⟨hperm, hsub⟩ := from_bounding_boxes_invariant _ t h
  have hlen : (point_boxes verts).length = verts.length := List.length_map _ _
  constructor
  · intro hk
    obtain ⟨hmem, hpf⟩ := collect_subset _ _ t k hk
    refine List.mem_filter.mpr ⟨?_, hpf⟩
    rw [List.mem_range, ← hlen, ← List.mem_range]
    exact hperm.mem_iff.mp hmem
  · intro hk
    obtain ⟨hkr, hpf⟩ := List.mem_filter.mp hk
    have hkn : k < verts.length := List.mem_range.mp hkr
    apply collect_complete
    · refine hperm.mem_iff.mpr ?_
      rw [List.mem_range, hlen]
      exact hkn
    · exact hpf
    · intro s hs hin
      have hcont := union_aabb_superset (point_boxes verts) (final_prims s) k hin
      rw [← (hsub s hs).2, point_boxes_at verts k hkn] at hcont
      have hin2 : in_aabb (vert_at verts k) (BVHTree.aabb_of s) :=
        in_aabb_of_contains_point_box _ _ hcont
      unfold sphere_aabb_intersection
      rw [decide_eq_true_iff]
      exact (point_aabb_dist_le u (vert_at verts k) _ hin2).trans
        (decide_eq_true_iff.mp hpf)

/-- Two triangles sharing an edge as flat raw vertex data: 6 vertices, the
pairs at positions 1,3 and 2,4 physically identical. -/
def example_weld_verts : List Vec3 :=
  [⟨0, 0, 0⟩, ⟨1, 0, 0⟩, ⟨0, 1, 0⟩, ⟨1, 0, 0⟩, ⟨0, 1, 0⟩, ⟨1, 1, 0⟩]

/-- C4: the welding pass processes vertices in input order, assigning each
not-yet-remapped vertex the next unique index together with every
not-yet-remapped input vertex within distance epsilon of it (the seed
included), so weld groups are proximity-to-first-seen; on the two-triangle
example the output has exactly 4 unique vertices and 6 indices forming the 2
triangles. -/
theorem weld_matches_greedy :
    (∀ (verts : List Vec3) (res : List Vec3 × List Nat),
      weld_mesh verts = some res → res = weld_greedy verts) ∧
    weld_mesh example_weld_verts =
      some ([⟨0, 0, 0⟩, ⟨1, 0, 0⟩, ⟨0, 1, 0⟩, ⟨1, 1, 0⟩], [0, 1, 2, 1, 2, 3]) := by
  constructor
  · intro verts res hres
    unfold weld_mesh at hres
    rcases hb : from_bounding_boxes (point_boxes verts) with _ | t
    · rw [hb] at hres
      cases hres
    · rw [hb] at hres
      obtain rfl : weld_output (weld_code verts t) verts.length = res :=
        Option.some.inj hres
      unfold weld_greedy weld_code
      rw [weld_pass_congr verts _ _ (fun u k => weld_hits_mem_iff verts t hb u k)]
  · decide

theorem weld_matches_greedy_witness :
    (([⟨0, 0, 0⟩, ⟨1, 0, 0⟩, ⟨0, 1, 0⟩, ⟨1, 1, 0⟩], [0, 1, 2, 1, 2, 3]) :
        List Vec3 × List Nat) =
      weld_greedy example_weld_verts :=
  weld_matches_greedy.1 example_weld_verts _ (by decide)

/-! ## Point-in-volume classification (`GeoBox_App::generate_points_in_volume`) -/

def idx_at (idx : List Nat) (i : Nat) : Nat := idx.getD i 0

/-- Triangle `i` of the indexed mesh: vertices `indices[3i], indices[3i+1],
indices[3i+2]`. -/
def tri_at (verts : List Vec3) (idx : List Nat) (i : Nat) : Triangle :=
  ⟨vert_at verts (idx_at idx (3 * i)), vert_at verts (idx_at idx (3 * i + 1)),
   vert_at verts (idx_at idx (3 * i + 2))⟩

def normal_at (normals : List Vec3) (i : Nat) : Vec3 := normals.getD i vzero

/-- Per-triangle bounding box (`object.cpp`):
`min = glm::min(a, glm::min(b, c))`, `max = glm::max(a, glm::max(b, c))`. -/
def triangle_box (tr : Triangle) : AABB :=
  ⟨vmin tr.a (vmin tr.b tr.c), vmax tr.a (vmax tr.b tr.c)⟩

def triangle_boxes (verts : List Vec3) (idx : List Nat) : List AABB :=
  (List.range (idx.length / 3)).map (fun i => triangle_box (tri_at verts idx i))

/-- Embeds `is_point_in_aabb`. -/
def is_point_in_aabb (p : Vec3) (A : AABB) : Bool :=
  decide (A.min.x ≤ p.x ∧ p.x ≤ A.max.x ∧ A.min.y ≤ p.y ∧ p.y ≤ A.max.y ∧
    A.min.z ≤ p.z ∧ p.z ≤ A.max.z)

/-- The AABB filter of the per-ray BVH query: rays from inside the box pass,
otherwise the slab test's return value must be non-negative. -/
def ray_filter (p d : Vec3) (A : AABB) : Bool :=
  is_point_in_aabb p A || decide (0 ≤ ray_aabb_intersection ⟨p, d⟩ A)

/-- One step of the closest-hit accumulation: skip triangles whose normal is
close-to-perpendicular to the direction, skip misses, and replace the current
closest hit when strictly closer, remembering the sign of the dot product. -/
def hit_step (verts : List Vec3) (idx : List Nat) (normals : List Vec3)
    (p d : Vec3) (st : ℚ × Bool) (i : Nat) : ℚ × Bool :=
  let dp := Vec3.dot d (normal_at normals i)
  if is_close dp 0 then st
  else
    match ray_intersects_triangle_t ⟨p, d⟩ (tri_at verts idx i) with
    | none => st
    | some tv => if tv < st.1 then (tv, decide (0 < dp)) else st

/-- Whether one cast ray registers a positive crossing: the traversal-visited
triangles folded from `closest_hit = 100000.0f` and a `false` flag. -/
def classify_ray (verts : List Vec3) (idx : List Nat) (normals : List Vec3)
    (t : BVHTree) (p d : Vec3) : Bool :=
  ((collect_primitives (ray_filter p d) (fun _ => true) t).foldl
    (hit_step verts idx normals p d) (100000, false)).2

/-- The classification run on the BVH the mesh pipeline builds over the
triangle boxes. -/
def classify_ray_on_mesh (verts : List Vec3) (idx : List Nat)
    (normals : List Vec3) (p d : Vec3) : Bool :=
  match from_bounding_boxes (triangle_boxes verts idx) with
  | none => false
  | some t => classify_ray verts idx normals t p d

def count_positive_hits (verts : List Vec3) (idx : List Nat) (normals : List Vec3)
    (t : BVHTree) (p : Vec3) (dirs : List Vec3) : Nat :=
  dirs.countP (fun d => classify_ray verts idx normals t p d)

/-- Embeds `num_positive_hits > directions.size() / 2`. -/
def point_retained (verts : List Vec3) (idx : List Nat) (normals : List Vec3)
    (t : BVHTree) (p : Vec3) (dirs : List Vec3) : Bool :=
  decide (dirs.length / 2 < count_positive_hits verts idx normals t p dirs)

/-- What the claim states the positive-crossing criterion is: among the
triangles whose normal is not near-perpendicular to the direction, the closest
ray-triangle hit exists and its normal has positive dot product with the
direction. -/
def spec_positive_crossing (verts : List Vec3) (idx : List Nat)
    (normals : List Vec3) (p d : Vec3) : Bool :=
  (List.range (idx.length / 3)).any (fun i =>
    !(is_close (Vec3.dot d (normal_at normals i)) 0) &&
    match ray_intersects_triangle_t ⟨p, d⟩ (tri_at verts idx i) with
    | none => false
    | some ti =>
      decide (0 < Vec3.dot d (normal_at normals i)) &&
      (List.range (idx.length / 3)).all (fun j =>
        if is_close (Vec3.dot d (normal_at normals j)) 0 then true
        else
          match ray_intersects_triangle_t ⟨p, d⟩ (tri_at verts idx j) with
          | none => true
          | some tj => decide (ti ≤ tj)))

/-- Counterexample mesh: a vertical triangle (normal perpendicular to the ray,
skipped by both the code and the claim) stretching the object box down to the
ray origin, and a far horizontal triangle at `z = 200000`. -/
def c5_verts : List Vec3 :=
  [⟨-10, -10, 0⟩, ⟨10, -10, 0⟩, ⟨0, -10, 5⟩,
   ⟨-10, -10, 200000⟩, ⟨10, -10, 200000⟩, ⟨0, 10, 200000⟩]

def c5_idx : List Nat := [0, 1, 2, 3, 4, 5]

def c5_normals : List Vec3 := [⟨0, -1, 0⟩, ⟨0, 0, 1⟩]

def c5_p : Vec3 := ⟨0, 0, 0⟩

def c5_d : Vec3 := ⟨0, 0, 1⟩

/-- C5 counterexample: from `(0,0,0)` along `+z` the closest (indeed only)
qualifying hit is the far triangle at parametric distance `200000` with normal
dot product `1 > 0`, so the claim's criterion registers a positive crossing;
but the code's closest-hit accumulator starts at `100000.0f`, so a hit at
`200000` never replaces it and no positive crossing is registered. -/
theorem classify_ray_misses_far_hit :
    spec_positive_crossing c5_verts c5_idx c5_normals c5_p c5_d = true ∧
    classify_ray_on_mesh c5_verts c5_idx c5_normals c5_p c5_d = false := by
  constructor <;> decide

theorem ray_triangle_t_some (r : Ray) (tri : Triangle) (a : ℚ)
    (h : ray_intersects_triangle_t r tri = some a) :
    a = tri_t r tri ∧ epsilon ≤ |tri_det r tri| ∧
      0 ≤ tri_u r tri + epsilon ∧ 0 ≤ tri_v r tri + epsilon := by
  unfold ray_intersects_triangle_t at h
  split_ifs at h with h1 h2 h3 h4 h5
  refine ⟨(Option.some.inj h).symm, not_lt.mp h1, ?_, ?_⟩ <;>
    linarith [not_lt.mp h3, not_lt.mp h4]

theorem slab_max_component_ge (lo hi o d t0 : ℚ) (ht0 : 0 ≤ t0)
    (h1 : lo ≤ o + t0 * d) (h2 : o + t0 * d ≤ hi) :
    ∀ m, slab_max_component lo hi o d = some m → t0 ≤ m := by
  intro m hm
  unfold slab_max_component at hm
  split_ifs at hm with hc
  have hd : d ≠ 0 := by
    intro h0
    rw [← is_close_zero_iff d] at h0
    rw [h0] at hc
    exact hc rfl
  obtain rfl : qmax ((lo - o) / d) ((hi - o) / d) = m := Option.some.inj hm
  rw [qmax_eq_max, le_max_iff]
  rcases lt_or_gt_of_ne hd with hneg | hpos
  · left
    rw [le_div_iff_of_neg hneg]
    linarith
  · right
    rw [le_div_iff hpos]
    linarith

theorem opt_min_ge (a b : Option ℚ) (c : ℚ)
    (ha : ∀ m, a = some m → c ≤ m) (hb : ∀ m, b = some m → c ≤ m) :
    ∀ m, opt_min a b = some m → c ≤ m := by
  intro m hm
  unfold opt_min at hm
  match a, b, hm with
  | none, b, hm => exact hb m hm
  | some q, none, hm => exact ha m hm
  | some q, some r, hm =>
    obtain rfl : qmin q r = m := Option.some.inj hm
    rw [qmin_eq_min, le_min_iff]
    exact ⟨ha q rfl, hb r rfl⟩

/-- If some point of the box lies on the forward ray, the slab test's return
value is non-negative (the BVH ray filter never prunes such a box). -/
theorem ray_aabb_nonneg_of_point (p d : Vec3) (A : AABB) (t0 : ℚ) (ht0 : 0 ≤ t0)
    (hq : in_aabb (p.add (Vec3.smul t0 d)) A) :
    0 ≤ ray_aabb_intersection ⟨p, d⟩ A := by
  obtain ⟨h1, h2, h3, h4, h5, h6⟩ := hq
  simp only [Vec3.add, Vec3.smul] at h1 h2 h3 h4 h5 h6
  have hx := slab_max_component_ge A.min.x A.max.x p.x d.x t0 ht0 (by linarith) (by linarith)
  have hy := slab_max_component_ge A.min.y A.max.y p.y d.y t0 ht0 (by linarith) (by linarith)
  have hz := slab_max_component_ge A.min.z A.max.z p.z d.z t0 ht0 (by linarith) (by linarith)
  unfold ray_aabb_intersection min_component_opt
  dsimp only
  have htmin : 0 ≤ qmax (max_component
      ⟨slab_min_component A.min.x A.max.x p.x d.x,
       slab_min_component A.min.y A.max.y p.y d.y,
       slab_min_component A.min.z A.max.z p.z d.z⟩) 0 := by
    rw [qmax_eq_max]
    exact le_max_right _ _
  rcases hopt : opt_min (slab_max_component A.min.x A.max.x p.x d.x)
      (opt_min (slab_max_component A.min.y A.max.y p.y d.y)
        (slab_max_component A.min.z A.max.z p.z d.z)) with _ | tm
  · exact htmin
  · show 0 ≤ qmin _ tm
    have htm : t0 ≤ tm :=
      opt_min_ge _ _ t0 hx (opt_min_ge _ _ t0 hy hz) tm hopt
    rw [qmin_eq_min, le_min_iff]
    exact ⟨htmin, ht0.trans htm⟩

theorem comp_between (ax bx cx u v : ℚ) (hu : 0 ≤ u) (hv : 0 ≤ v) (huv : u + v ≤ 1) :
    qmin ax (qmin bx cx) ≤ ax + (u * (bx - ax) + v * (cx - ax)) ∧
    ax + (u * (bx - ax) + v * (cx - ax)) ≤ qmax ax (qmax bx cx) := by
  rw [qmin_eq_min, qmin_eq_min, qmax_eq_max, qmax_eq_max]
  constructor
  · have ha : min ax (min bx cx) ≤ ax := min_le_left _ _
    have hb : min ax (min bx cx) ≤ bx := le_trans (min_le_right _ _) (min_le_left _ _)
    have hc : min ax (min bx cx) ≤ cx := le_trans (min_le_right _ _) (min_le_right _ _)
    nlinarith
  · have ha : ax ≤ max ax (max bx cx) := le_max_left _ _
    have hb : bx ≤ max ax (max bx cx) := le_trans (le_max_left _ _) (le_max_right _ _)
    have hc : cx ≤ max ax (max bx cx) := le_trans (le_max_right _ _) (le_max_right _ _)
    nlinarith

/-- A hit with non-negative barycentric coordinates summing to at most one lies
inside the triangle's bounding box. -/
theorem hit_point_in_triangle_box (r : Ray) (tri : Triangle) (t0 u v : ℚ)
    (hsys : tri_system r tri t0 u v) (hu : 0 ≤ u) (hv : 0 ≤ v) (huv : u + v ≤ 1) :
    in_aabb (r.origin.add (Vec3.smul t0 r.direction)) (triangle_box tri) := by
  unfold tri_system at hsys
  rw [hsys]
  unfold in_aabb triangle_box vmin vmax
  simp only [Vec3.add, Vec3.smul, Vec3.sub]
  obtain ⟨i1, i2⟩ := comp_between tri.a.x tri.b.x tri.c.x u v hu hv huv
  obtain ⟨i3, i4⟩ := comp_between tri.a.y tri.b.y tri.c.y u v hu hv huv
  obtain ⟨i5, i6⟩ := comp_between tri.a.z tri.b.z tri.c.z u v hu hv huv
  exact ⟨i1, i2, i3, i4, i5, i6⟩

theorem in_aabb_of_contains {A B : AABB} {q : Vec3} (h : contains_box A B)
    (hq : in_aabb q B) : in_aabb q A := by
  obtain ⟨c1, c2, c3, c4, c5, c6⟩ := h
  obtain ⟨q1, q2, q3, q4, q5, q6⟩ := hq
  exact ⟨c1.trans q1, q2.trans c4, c2.trans q3, q4.trans c5, c3.trans q5, q6.trans c6⟩

theorem triangle_boxes_at (verts : List Vec3) (idx : List Nat) (i : Nat)
    (hi : i < idx.length / 3) :
    box_at (triangle_boxes verts idx) i = triangle_box (tri_at verts idx i) := by
  unfold box_at triangle_boxes
  rw [List.getD_eq_getElem?_getD, List.getElem?_map, List.getElem?_range hi]
  rfl

theorem hit_fold_gt (verts : List Vec3) (idx : List Nat) (normals : List Vec3)
    (p d : Vec3) (t0 : ℚ) :
    ∀ l : List Nat,
      (∀ j ∈ l, is_close (Vec3.dot d (normal_at normals j)) 0 = false →
        ∀ tj : ℚ, ray_intersects_triangle_t ⟨p, d⟩ (tri_at verts idx j) = some tj →
          t0 < tj) →
      ∀ st : ℚ × Bool, t0 < st.1 →
        t0 < (l.foldl (hit_step verts idx normals p d) st).1 := by
  intro l
  induction l with
  | nil => intro _ st h; exact h
  | cons j rest ih =>
    intro hl st hst
    rw [List.foldl_cons]
    apply ih (fun k hk => hl k (List.mem_cons_of_mem _ hk))
    unfold hit_step
    by_cases hc : is_close (Vec3.dot d (normal_at normals j)) 0
    · rw [if_pos hc]
      exact hst
    · rw [if_neg hc]
      rcases hrt : ray_intersects_triangle_t ⟨p, d⟩ (tri_at verts idx j) with _ | tj
      · exact hst
      · have htj : t0 < tj :=
          hl j (List.mem_cons_self _ _) ((Bool.not_eq_true _).mp hc) tj hrt
        dsimp only
        split_ifs with hlt
        · exact htj
        · exact hst

theorem hit_fold_fix (verts : List Vec3) (idx : List Nat) (normals : List Vec3)
    (p d : Vec3) (t0 : ℚ) (f : Bool) :
    ∀ l : List Nat,
      (∀ j ∈ l, is_close (Vec3.dot d (normal_at normals j)) 0 = false →
        ∀ tj : ℚ, ray_intersects_triangle_t ⟨p, d⟩ (tri_at verts idx j) = some tj →
          t0 < tj) →
      l.foldl (hit_step verts idx normals p d) (t0, f) = (t0, f) := by
  intro l
  induction l with
  | nil => intro _; rfl
  | cons j rest ih =>
    intro hl
    rw [List.foldl_cons]
    have hstep : hit_step verts idx normals p d (t0, f) j = (t0, f) := by
      unfold hit_step
      by_cases hc : is_close (Vec3.dot d (normal_at normals j)) 0
      · rw [if_pos hc]
      · rw [if_neg hc]
        rcases hrt : ray_intersects_triangle_t ⟨p, d⟩ (tri_at verts idx j) with _ | tj
        · rfl
        · have htj : t0 < tj :=
            hl j (List.mem_cons_self _ _) ((Bool.not_eq_true _).mp hc) tj hrt
          dsimp only
          rw [if_neg (by simp only [not_lt]; exact le_of_lt htj)]
    rw [hstep]
    exact ih (fun k hk => hl k (List.mem_cons_of_mem _ hk))

/-- C5 amended: provided the BVH build succeeded, every hit of the cast ray
has non-negative parameter and barycentric coordinates within the triangle,
and there is a unique closest qualifying hit at distance below the `100000.0f`
sentinel, a ray registers a positive crossing exactly when that hit's normal
has positive dot product with the ray direction; and a candidate point is
retained if and only if strictly more than `M/2` of its `M` rays register a
positive crossing. -/
theorem classify_ray_closest_hit (verts : List Vec3) (idx : List Nat)
    (normals : List Vec3) (t : BVHTree) (p d : Vec3)
    (ht : from_bounding_boxes (triangle_boxes verts idx) = some t)
    (hin : ∀ i < idx.length / 3, ∀ a : ℚ,
      ray_intersects_triangle_t ⟨p, d⟩ (tri_at verts idx i) = some a →
      0 ≤ a ∧ 0 ≤ tri_u ⟨p, d⟩ (tri_at verts idx i) ∧
        0 ≤ tri_v ⟨p, d⟩ (tri_at verts idx i) ∧
        tri_u ⟨p, d⟩ (tri_at verts idx i) + tri_v ⟨p, d⟩ (tri_at verts idx i) ≤ 1)
    (i0 : Nat) (t0 : ℚ) (hi0 : i0 < idx.length / 3)
    (hd0 : is_close (Vec3.dot d (normal_at normals i0)) 0 = false)
    (hh0 : ray_intersects_triangle_t ⟨p, d⟩ (tri_at verts idx i0) = some t0)
    (hcap : t0 < 100000)
    (hmin : ∀ j < idx.length / 3, j ≠ i0 →
      is_close (Vec3.dot d (normal_at normals j)) 0 = false →
      ∀ tj : ℚ, ray_intersects_triangle_t ⟨p, d⟩ (tri_at verts idx j) = some tj →
        t0 < tj) :
    classify_ray verts idx normals t p d
        = decide (0 < Vec3.dot d (normal_at normals i0)) ∧
    ∀ dirs : List Vec3,
      point_retained verts idx normals t p dirs = true ↔
        dirs.length / 2 < count_positive_hits verts idx normals t p dirs := by
  have hlenb : (triangle_boxes verts idx).length = idx.length / 3 := by
    unfold triangle_boxes
    rw [List.length_map, List.length_range]
  obtain ⟨hperm0, hsub⟩ := from_bounding_boxes_invariant _ t ht
  have hperm : (final_prims t).Perm (List.range (idx.length / 3)) := by
    rwa [hlenb] at hperm0
  obtain ⟨ht_eq, hdet, -, -⟩ := ray_triangle_t_some ⟨p, d⟩ (tri_at verts idx i0) t0 hh0
  have hD : tri_det ⟨p, d⟩ (tri_at verts idx i0) ≠ 0 := by
    intro h0
    rw [h0, abs_zero] at hdet
    norm_num [epsilon] at hdet
  have hsys := cramer_solves ⟨p, d⟩ (tri_at verts idx i0) hD
  obtain ⟨hta, hua, hva, huva⟩ := hin i0 hi0 t0 hh0
  rw [← ht_eq] at hsys
  have hbox := hit_point_in_triangle_box ⟨p, d⟩ _ t0 _ _ hsys hua hva huva
  have hmem : i0 ∈ final_prims t := hperm.mem_iff.mpr (List.mem_range.mpr hi0)
  have hcol : i0 ∈ collect_primitives (ray_filter p d) (fun _ => true) t := by
    apply collect_complete
    · exact hmem
    · rfl
    · intro s hs hin_s
      have hcont := union_aabb_superset (triangle_boxes verts idx) (final_prims s) i0 hin_s
      rw [← (hsub s hs).2, triangle_boxes_at verts idx i0 hi0] at hcont
      have hq : in_aabb (Vec3.add p (Vec3.smul t0 d)) (BVHTree.aabb_of s) :=
        in_aabb_of_contains hcont hbox
      unfold ray_filter
      rw [Bool.or_eq_true]
      right
      rw [decide_eq_true_iff]
      exact ray_aabb_nonneg_of_point p d _ t0 hta hq
  have hnodup_fp : (final_prims t).Nodup := hperm.nodup_iff.mpr (List.nodup_range _)
  have hltK : ∀ j ∈ collect_primitives (ray_filter p d) (fun _ => true) t,
      j < idx.length / 3 := fun j hj =>
    List.mem_range.mp (hperm.mem_iff.mp (collect_subset _ _ t j hj).1)
  have hnodup_col : (collect_primitives (ray_filter p d) (fun _ => true) t).Nodup := by
    rw [List.nodup_iff_count_le_one] at hnodup_fp ⊢
    intro a
    exact le_trans (collect_count_le _ _ t a) (hnodup_fp a)
  obtain ⟨l1, l2, hsplit⟩ := List.append_of_mem hcol
  rw [hsplit] at hnodup_col
  obtain ⟨hn1, hn2, hdisj⟩ := List.nodup_append.mp hnodup_col
  have hi0l2 : i0 ∉ l2 := (List.nodup_cons.mp hn2).1
  have hi0l1 : i0 ∉ l1 := fun hm => hdisj hm (List.mem_cons_self _ _)
  have hl1min : ∀ j ∈ l1, is_close (Vec3.dot d (normal_at normals j)) 0 = false →
      ∀ tj : ℚ, ray_intersects_triangle_t ⟨p, d⟩ (tri_at verts idx j) = some tj →
        t0 < tj := by
    intro j hj
    have hjK : j < idx.length / 3 :=
      hltK j (by rw [hsplit]; exact List.mem_append_left _ hj)
    have hji : j ≠ i0 := fun he => hi0l1 (he ▸ hj)
    exact hmin j hjK hji
  have hl2min : ∀ j ∈ l2, is_close (Vec3.dot d (normal_at normals j)) 0 = false →
      ∀ tj : ℚ, ray_intersects_triangle_t ⟨p, d⟩ (tri_at verts idx j) = some tj →
        t0 < tj := by
    intro j hj
    have hjK : j < idx.length / 3 :=
      hltK j (by
        rw [hsplit]
        exact List.mem_append_right _ (List.mem_cons_of_mem _ hj))
    have hji : j ≠ i0 := fun he => hi0l2 (he ▸ hj)
    exact hmin j hjK hji
  constructor
  · unfold classify_ray
    rw [hsplit, List.foldl_append, List.foldl_cons]
    have hst1 := hit_fold_gt verts idx normals p d t0 l1 hl1min (100000, false)
      (by dsimp only; exact hcap)
    have hstep : hit_step verts idx normals p d
        (l1.foldl (hit_step verts idx normals p d) (100000, false)) i0
        = (t0, decide (0 < Vec3.dot d (normal_at normals i0))) := by
      unfold hit_step
      rw [if_neg (by simp [hd0])]
      rw [hh0]
      dsimp only
      split_ifs with hlt
      · rfl
      · exact absurd hst1 hlt
    rw [hstep, hit_fold_fix verts idx normals p d t0 _ l2 hl2min]
  · intro dirs
    unfold point_retained
    exact decide_eq_true_iff

/-- One-triangle mesh for the classification witness: a horizontal triangle at
`z = 5`, hit from the origin along `+z` at parametric distance `5`. -/
def w5_verts : List Vec3 := [⟨-10, -10, 5⟩, ⟨10, -10, 5⟩, ⟨0, 10, 5⟩]

def w5_idx : List Nat := [0, 1, 2]

def w5_normals : List Vec3 := [⟨0, 0, 1⟩]

def w5_tree : BVHTree := .leaf ⟨⟨-10, -10, 5⟩, ⟨10, 10, 5⟩⟩ [0]

theorem classify_ray_closest_hit_witness :
    classify_ray w5_verts w5_idx w5_normals w5_tree ⟨0, 0, 0⟩ ⟨0, 0, 1⟩
        = decide (0 < Vec3.dot ⟨0, 0, 1⟩ (normal_at w5_normals 0)) ∧
    ∀ dirs : List Vec3,
      point_retained w5_verts w5_idx w5_normals w5_tree ⟨0, 0, 0⟩ dirs = true ↔
        dirs.length / 2 <
          count_positive_hits w5_verts w5_idx w5_normals w5_tree ⟨0, 0, 0⟩ dirs :=
  classify_ray_closest_hit w5_verts w5_idx w5_normals w5_tree ⟨0, 0, 0⟩ ⟨0, 0, 1⟩
    (by decide)
    (by
      intro i hi a ha
      obtain rfl : i = 0 := by
        simp [w5_idx] at hi
        omega
      rw [show ray_intersects_triangle_t ⟨⟨0, 0, 0⟩, ⟨0, 0, 1⟩⟩ (tri_at w5_verts w5_idx 0)
          = some 5 from by decide] at ha
      obtain rfl : (5 : ℚ) = a := Option.some.inj ha
      refine ⟨by norm_num, ?_, ?_, ?_⟩ <;> decide)
    0 5 (by decide) (by decide) (by decide) (by norm_num)
    (by
      intro j hj hne
      obtain rfl : j = 0 := by
        simp [w5_idx] at hj
        omega
      exact absurd rfl hne)

/-! ## Surface sampling (`GeoBox_App::generate_points_on_surface`) -/

/-- Real-valued 3D vector for the sampling transform (which uses `std::sqrt`,
modelled by `Real.sqrt`). -/
structure Vec3R where
  x : ℝ
  y : ℝ
  z : ℝ

def Vec3R.add (a b : Vec3R) : Vec3R := ⟨a.x + b.x, a.y + b.y, a.z + b.z⟩

def Vec3R.sub (a b : Vec3R) : Vec3R := ⟨a.x - b.x, a.y - b.y, a.z - b.z⟩

def Vec3R.smul (s : ℝ) (v : Vec3R) : Vec3R := ⟨s * v.x, s * v.y, s * v.z⟩

theorem vec3r_eq_iff (a b : Vec3R) : a = b ↔ a.x = b.x ∧ a.y = b.y ∧ a.z = b.z := by
  cases a; cases b; simp

/-- Embeds `random_triangle_barycentric_coords_transform`:
`(1 - sqrt(u0), u1 * sqrt(u0))`. -/
noncomputable def random_triangle_barycentric_coords_transform (u0 u1 : ℝ) : ℝ × ℝ :=
  (1 - Real.sqrt u0, u1 * Real.sqrt u0)

/-- The emitted sample point `p = ab * uv.x + ac * uv.y + a`. -/
noncomputable def surface_sample_point (a b c : Vec3R) (u0 u1 : ℝ) : Vec3R :=
  ((( b.sub a).smul (random_triangle_barycentric_coords_transform u0 u1).1).add
    ((c.sub a).smul (random_triangle_barycentric_coords_transform u0 u1).2)).add a

/-- C9: for uniform draws in `[0,1]` the square-root barycentric transform
produces coordinates in `[0,1]` summing to at most one, and the emitted point
`a + u0'*(b-a) + u1'*(c-a)` is the convex combination
`(1-u0'-u1')*a + u0'*b + u1'*c` of the triangle's vertices, hence lies in its
convex hull. -/
theorem surface_sample_in_convex_hull (u0 u1 : ℝ) (h00 : 0 ≤ u0) (h01 : u0 ≤ 1)
    (h10 : 0 ≤ u1) (h11 : u1 ≤ 1) (a b c : Vec3R) :
    0 ≤ (random_triangle_barycentric_coords_transform u0 u1).1 ∧
    (random_triangle_barycentric_coords_transform u0 u1).1 ≤ 1 ∧
    0 ≤ (random_triangle_barycentric_coords_transform u0 u1).2 ∧
    (random_triangle_barycentric_coords_transform u0 u1).2 ≤ 1 ∧
    (random_triangle_barycentric_coords_transform u0 u1).1 +
      (random_triangle_barycentric_coords_transform u0 u1).2 ≤ 1 ∧
    surface_sample_point a b c u0 u1 =
      ((a.smul (1 - (random_triangle_barycentric_coords_transform u0 u1).1 -
          (random_triangle_barycentric_coords_transform u0 u1).2)).add
        (b.smul (random_triangle_barycentric_coords_transform u0 u1).1)).add
        (c.smul (random_triangle_barycentric_coords_transform u0 u1).2) := by
  have hs0 : 0 ≤ Real.sqrt u0 := Real.sqrt_nonneg u0
  have hs1 : Real.sqrt u0 ≤ 1 := Real.sqrt_le_one.mpr h01
  unfold random_triangle_barycentric_coords_transform
  dsimp only
  refine ⟨by linarith, by linarith, mul_nonneg h10 hs0, ?_, ?_, ?_⟩
  · have := mul_le_mul_of_nonneg_right h11 hs0
    linarith
  · have := mul_le_of_le_one_left hs0 h11
    linarith
  · unfold surface_sample_point random_triangle_barycentric_coords_transform
      Vec3R.add Vec3R.sub Vec3R.smul
    dsimp only
    rw [vec3r_eq_iff]
    refine ⟨?_, ?_, ?_⟩ <;> (dsimp only; ring)

theorem surface_sample_in_convex_hull_witness :
    0 ≤ (random_triangle_barycentric_coords_transform 1 (1 / 2)).1 ∧
    (random_triangle_barycentric_coords_transform 1 (1 / 2)).1 ≤ 1 ∧
    0 ≤ (random_triangle_barycentric_coords_transform 1 (1 / 2)).2 ∧
    (random_triangle_barycentric_coords_transform 1 (1 / 2)).2 ≤ 1 ∧
    (random_triangle_barycentric_coords_transform 1 (1 / 2)).1 +
      (random_triangle_barycentric_coords_transform 1 (1 / 2)).2 ≤ 1 ∧
    surface_sample_point ⟨0, 0, 0⟩ ⟨1, 0, 0⟩ ⟨0, 1, 0⟩ 1 (1 / 2) =
      ((Vec3R.smul (1 - (random_triangle_barycentric_coords_transform 1 (1 / 2)).1 -
          (random_triangle_barycentric_coords_transform 1 (1 / 2)).2) ⟨0, 0, 0⟩).add
        (Vec3R.smul (random_triangle_barycentric_coords_transform 1 (1 / 2)).1 ⟨1, 0, 0⟩)).add
        (Vec3R.smul (random_triangle_barycentric_coords_transform 1 (1 / 2)).2 ⟨0, 1, 0⟩) :=
  surface_sample_in_convex_hull 1 (1 / 2) (by norm_num) (by norm_num) (by norm_num)
    (by norm_num) ⟨0, 0, 0⟩ ⟨1, 0, 0⟩ ⟨0, 1, 0⟩
